import Mathlib

/-!
Verification of the Ottavia music-quality-lab core against its source.

Each definition in this file is a shallow embedding of a function of the Go
source tree (file and function named in its doc comment).  Machine floats of
the source are modelled as rationals, Go int64 arithmetic as integers with
explicit two's-complement wraparound where overflow is reachable, and
filesystem or process effects as explicit state or environment parameters.
-/

namespace Ottavia

/-! ## Album detail DR score (internal/database/database.go, GetAlbumDetail) -/

/-- Truncation of a rational toward zero: the behaviour of the Go conversion
int(x) applied to a float64 value. -/
def truncQ (q : ℚ) : ℤ := if 0 ≤ q then ⌊q⌋ else ⌈q⌉

/-- Per-track DR score as computed in GetAlbumDetail: dr := int(loudnessRange +
crestFactor/2), then if dr < 1 it becomes 1, then if dr > 20 it becomes 20. -/
def drScore (loudnessRange crestFactor : ℚ) : ℤ :=
  let dr := truncQ (loudnessRange + crestFactor / 2)
  let dr2 := if dr < 1 then 1 else dr
  if dr2 > 20 then 20 else dr2

/-- The DR formula as the specification words it: round the real value
loudnessRange + crestFactor/2 to the nearest integer, then clamp into 1..20.
Written from the spec sentence, to be compared against drScore. -/
def drScoreSpecRounded (loudnessRange crestFactor : ℚ) : ℤ :=
  min (max (round (loudnessRange + crestFactor / 2)) 1) 20

/-! ## Phase module summary (unnamed audioscan sources: extractPhaseSeries and
runPhaseModuleWithLog) -/

/-- Number of retained correlation entries that are strictly negative, as
counted by the negCount loop of extractPhaseSeries. -/
def negCount (corrs : List ℚ) : ℕ := (corrs.filter (fun c => decide (c < 0))).length

/-- The PhaseIssue field stored in the raw phase series: negCount >
len(Correlation)/4 with Go integer division. -/
def phaseIssueSeries (corrs : List ℚ) : Bool := negCount corrs > corrs.length / 4

/-- MinCorrelation of the phase series: starts at 1.0 and is lowered by every
retained correlation value that is smaller. -/
def minCorrelation (corrs : List ℚ) : ℚ :=
  corrs.foldl (fun m c => if c < m then c else m) 1

/-- AvgCorrelation of the phase series: sum of retained correlations divided by
their count when any were retained, otherwise the initial 0. -/
def avgCorrelation (corrs : List ℚ) : ℚ :=
  if corrs.length = 0 then 0 else corrs.sum / corrs.length

/-- The phaseIssue value written into the manifest summary map by
runPhaseModuleWithLog: series.MinCorrelation < -0.5 or series.AvgCorrelation
< 0. -/
def phaseIssueSummary (corrs : List ℚ) : Bool :=
  decide (minCorrelation corrs < -(1/2)) || decide (avgCorrelation corrs < 0)

/-- Concrete retained-correlation list used to separate the manifest summary
phaseIssue from the quarter-negative rule: one fully out-of-phase frame among
eight. -/
def phaseEx : List ℚ := [-1, 1, 1, 1, 1, 1, 1, 1]

/-! ## Per-job log buffer (jobs Logger, GetLogSince) -/

/-- The per-job state the log buffer keeps: status string and the append-only
entry slice.  Entries are abstract. -/
structure JobLogState (α : Type) where
  status : String
  entries : List α
deriving DecidableEq, Repr

/-- GetLogSince: for a tracked job a negative index is clamped to 0, an index
at or past the entry count yields an empty slice, and otherwise the slice of
entries from sinceIndex on is returned; the total entry count and the status
accompany every reply.  The untracked-job return (nil, 0, empty status) is
modelled as none. -/
def getLogSince {α : Type} (logs : List (String × JobLogState α)) (jobID : String)
    (sinceIndex : ℤ) : Option (List α × ℕ × String) :=
  match logs.lookup jobID with
  | none => none
  | some jl =>
    let s := if sinceIndex < 0 then 0 else sinceIndex
    if (jl.entries.length : ℤ) ≤ s then some ([], jl.entries.length, jl.status)
    else some (jl.entries.drop s.toNat, jl.entries.length, jl.status)

/-! ## Artifact directory sharding (internal/audioscan/manifest.go ArtifactDir,
internal/audioscan/api.go GetManifest) -/

/-- ArtifactDir: filepath.Join(basePath, "tracks", trackID[:2], trackID),
modelled with slash concatenation.  The Go slice trackID[:2] panics when the
id has fewer than two characters; the panic is modelled as Except.error. -/
def artifactDir (basePath trackID : String) : Except String String :=
  if 2 ≤ trackID.length then
    Except.ok (basePath ++ "/tracks/" ++ trackID.take 2 ++ "/" ++ trackID)
  else Except.error "slice bounds out of range"

/-- GetManifest handler flow: the raw id URL parameter is passed to ArtifactDir
with no length validation, and the manifest is then loaded from the resulting
directory.  Loading is abstracted as a pure lookup; ok none models the 404
reply and error models the propagated panic. -/
def getManifestEndpoint {M : Type} (load : String → Option M)
    (artifactsPath trackID : String) : Except String (Option M) :=
  match artifactDir artifactsPath trackID with
  | Except.error e => Except.error e
  | Except.ok dir => Except.ok (load dir)

/-! ## Worker retry backoff (internal/jobs/worker.go, processNextJob) -/

/-- Reinterpretation of an arbitrary integer as a Go int64: reduction into the
interval from -2^63 to 2^63 - 1 by two's-complement wraparound. -/
def wrap64 (x : ℤ) : ℤ := (x + 2 ^ 63) % 2 ^ 64 - 2 ^ 63

/-- Go's 1 << attempts on int64: bits shifted beyond the top are discarded, so
the value is 2 ^ attempts reduced into the int64 range. -/
def shiftOne64 (attempts : ℕ) : ℤ := wrap64 (2 ^ attempts)

/-- The retry delay computed by processNextJob, in nanoseconds:
time.Duration(1 << attempts) * time.Minute with int64 arithmetic and no cap. -/
def backoffNs (attempts : ℕ) : ℤ := wrap64 (shiftOne64 attempts * 60000000000)

/-- The backoff as the specification words it: min(2^attempts minutes, 1 hour)
in nanoseconds.  Written from the spec sentence, to be compared against
backoffNs. -/
def backoffSpecNs (attempts : ℕ) : ℤ :=
  min (2 ^ attempts * 60000000000) 3600000000000

/-- Job lifecycle states used by the queue. -/
inductive JStatus
  | queued
  | running
  | success
  | failed
deriving DecidableEq, Repr

/-- The fields of a jobs row that the failure path of processNextJob touches. -/
structure WJob where
  attempts : ℕ
  maxAttempts : ℕ
  status : JStatus
  scheduledAt : ℤ
  finishedAt : Option ℤ
deriving DecidableEq, Repr

/-- Failure handling in processNextJob: attempts is incremented; if it reaches
max_attempts the job becomes failed with finished_at stamped, otherwise it is
requeued with scheduled_at = now + backoff. -/
def processFailure (now : ℤ) (j : WJob) : WJob :=
  let a := j.attempts + 1
  if a ≥ j.maxAttempts then
    { j with attempts := a, status := .failed, finishedAt := some now }
  else
    { j with attempts := a, status := .queued,
             scheduledAt := now + backoffNs a }

/-! ## Atomic metadata write (internal/analyzer/analyzer.go, atomicWrite) -/

/-- Contents at the three paths atomicWrite touches: the original file, the
hidden sibling temp file, and the .ottavia_backup sibling. -/
structure TagWriteFS where
  orig : Option ℕ
  temp : Option ℕ
  backup : Option ℕ
deriving DecidableEq, Repr

/-- Outcomes of the external steps of one atomicWrite call: whether ffmpeg
exits zero, whether the temp file exists afterwards, and whether each rename
succeeds. -/
structure WriteEnv where
  muxOk : Bool
  muxWroteTemp : Bool
  backupRenameOk : Bool
  finalRenameOk : Bool
  restoreRenameOk : Bool
deriving DecidableEq, Repr

/-- Result reported by atomicWrite. -/
inductive WriteOutcome
  | ok
  | muxFailed
  | tempMissing
  | backupFailed
  | renameFailed
deriving DecidableEq, Repr

/-- atomicWrite: run ffmpeg into a sibling temp file; on command failure remove
the temp and report; if the temp is absent report; rename the original to the
backup name, removing the temp on failure; rename the temp to the original
name, attempting the reverse backup rename on failure without removing the
temp; on success remove the backup. -/
def atomicWrite (origContent newContent : ℕ) (env : WriteEnv) :
    WriteOutcome × TagWriteFS :=
  let fs0 : TagWriteFS := ⟨some origContent, none, none⟩
  if !env.muxOk then
    (.muxFailed, { fs0 with temp := none })
  else
    let fs1 := { fs0 with temp := if env.muxWroteTemp then some newContent else none }
    match h : fs1.temp with
    | none => (.tempMissing, fs1)
    | some _ =>
      if !env.backupRenameOk then
        (.backupFailed, { fs1 with temp := none })
      else
        let fs2 := { fs1 with orig := none, backup := fs1.orig }
        if !env.finalRenameOk then
          if env.restoreRenameOk then
            (.renameFailed, { fs2 with orig := fs2.backup, backup := none })
          else (.renameFailed, fs2)
        else
          (.ok, { fs2 with orig := fs2.temp, temp := none, backup := none })

/-- Step outcome for atomicWrite in which everything succeeds until the final
rename of the temp onto the original, which fails, and the reverse rename of
the backup succeeds. -/
def renameFailEnv : WriteEnv := ⟨true, true, true, false, true⟩

/-! ## Job claiming (internal/database/database.go, GetNextJob) -/

/-- The jobs-row fields GetNextJob reads and writes. -/
structure QJob where
  id : ℕ
  jtype : String
  status : JStatus
  priority : ℤ
  scheduledAt : ℤ
  startedAt : Option ℤ
deriving DecidableEq, Repr

/-- Row filter of the claim query: matching type, status queued, and
scheduled_at not in the future. -/
def eligible (now : ℤ) (jt : String) (j : QJob) : Bool :=
  j.jtype == jt && decide (j.status = JStatus.queued) && decide (j.scheduledAt ≤ now)

/-- Strict precedence in the ORDER BY priority DESC, scheduled_at ASC order:
cand is listed strictly before best. -/
def preferOver (cand best : QJob) : Bool :=
  decide (best.priority < cand.priority) ||
    (decide (cand.priority = best.priority) &&
      decide (cand.scheduledAt < best.scheduledAt))

/-- One step of scanning the jobs table in storage order, keeping the row that
comes first in ORDER BY priority DESC, scheduled_at ASC among eligible rows. -/
def claimStep (now : ℤ) (jt : String) (acc : Option QJob) (j : QJob) : Option QJob :=
  if eligible now jt j then
    match acc with
    | none => some j
    | some b => if preferOver j b then some j else some b
  else acc

/-- The SELECT of GetNextJob: the single eligible row coming first in
ORDER BY priority DESC, scheduled_at ASC (LIMIT 1); ties are broken by
storage order, which the query leaves unspecified. -/
def selectNext (now : ℤ) (jt : String) (jobs : List QJob) : Option QJob :=
  jobs.foldl (claimStep now jt) none

/-- The UPDATE of GetNextJob on the claimed row: status running, started_at
stamped with now. -/
def markRunning (now : ℤ) (j : QJob) : QJob :=
  { j with status := .running, startedAt := some now }

/-- GetNextJob: inside one transaction, select the first eligible row in the
claim order, mark exactly that row running with started_at = now, and return
it; sql.ErrNoRows (no eligible job) is modelled as none with the table
unchanged.  SQLite serializes the transaction, so concurrent callers observe
this sequential behaviour. -/
def getNextJob (now : ℤ) (jt : String) (jobs : List QJob) :
    Option QJob × List QJob :=
  match selectNext now jt jobs with
  | none => (none, jobs)
  | some j =>
    (some (markRunning now j),
     jobs.map (fun x => if x.id = j.id then markRunning now x else x))

/-! ## Decode retry shim (unnamed audioscan source, runFFmpegWithRetry) -/

/-- The stderr patterns treated as transient NAS errors by isRetryableError. -/
def retryablePatterns : List String :=
  ["No such file or directory", "Input/output error", "Stale file handle",
   "Resource temporarily unavailable", "Connection timed out",
   "Transport endpoint is not connected", "Network is unreachable",
   "Permission denied"]

/-- Whether pat is an initial segment of s, over character lists. -/
def leadsList : List Char → List Char → Bool
  | [], _ => true
  | _ :: _, [] => false
  | p :: ps, c :: cs => p == c && leadsList ps cs

/-- Whether pat occurs contiguously inside s, over character lists. -/
def occursList (pat : List Char) : List Char → Bool
  | [] => leadsList pat []
  | c :: rest => leadsList pat (c :: rest) || occursList pat rest

/-- strings.Contains: pat occurs as a contiguous substring of s. -/
def containsSubstring (s pat : String) : Bool := occursList pat.data s.data

/-- isRetryableError on a failed command: some retryable pattern occurs in the
captured stderr.  The err-is-nil early return of the source is covered by the
call sites, which only consult this after a failure. -/
def isRetryableStderr (stderr : String) : Bool :=
  retryablePatterns.any (fun p => containsSubstring stderr p)

/-- Observable behaviour of one prospective attempt: whether the input file
stats, whether the command exits zero, and the stderr the command produces. -/
structure DecodeAttempt where
  statOk : Bool
  execOk : Bool
  stderr : String

/-- Terminal result of the retry shim, with the attempt number it arose at. -/
inductive RetryOutcome
  | succeeded (idx : ℕ)
  | statGaveUp (idx : ℕ)
  | cmdFailed (idx : ℕ)
deriving DecidableEq, Repr

/-- Trace of one runFFmpegWithRetry call: the attempt numbers at which the
command was actually executed, the backoffs slept in seconds in order, and
the outcome. -/
structure RetryTrace where
  execIdxs : List ℕ
  sleeps : List ℕ
  outcome : RetryOutcome
deriving DecidableEq, Repr

/-- Backoff update of the shim: backoff doubles and is clamped to the 16
second cap. -/
def doubleCapped (b : ℕ) : ℕ := if 2 * b > 16 then 16 else 2 * b

/-- The backoff value after k sleeps: 1 doubling each time, capped at 16. -/
def capSeq (k : ℕ) : ℕ := min (2 ^ k) 16

/-- The retry loop of runFFmpegWithRetry: att is the current attempt number,
b the current backoff, and fuel the number of loop iterations still allowed
(six on entry, for attempt <= maxRetries = 5).  Before running the command the
input file is stat-checked; an inaccessible file sleeps the backoff and
retries while attempts remain, else gives up.  A failed command retries only
when its stderr matches a retryable pattern and attempts remain.  The fuel-0
base case is unreachable from the entry point. -/
def retryLoop (env : ℕ → DecodeAttempt) : ℕ → ℕ → ℕ → RetryTrace
  | 0, att, _ => ⟨[], [], .cmdFailed att⟩
  | fuel + 1, att, b =>
    if (env att).statOk = false then
      if fuel = 0 then ⟨[], [], .statGaveUp att⟩
      else
        let t := retryLoop env fuel (att + 1) (doubleCapped b)
        ⟨t.execIdxs, b :: t.sleeps, t.outcome⟩
    else
      if (env att).execOk then ⟨[att], [], .succeeded att⟩
      else
        if isRetryableStderr (env att).stderr = true ∧ fuel ≠ 0 then
          let t := retryLoop env fuel (att + 1) (doubleCapped b)
          ⟨att :: t.execIdxs, b :: t.sleeps, t.outcome⟩
        else ⟨[att], [], .cmdFailed att⟩

/-- runFFmpegWithRetry: the retry loop entered with attempt 0, backoff 1 s and
room for six iterations (maxRetries = 5 with attempt ranging 0..5). -/
def runFFmpegWithRetry (env : ℕ → DecodeAttempt) : RetryTrace :=
  retryLoop env 6 0 1

/-- Environment in which the input file always stats and every execution fails
with a retryable stderr. -/
def allRetryEnv : ℕ → DecodeAttempt :=
  fun _ => ⟨true, false, "av_interleaved_write_frame: Input/output error"⟩

/-! ## Library scan (internal/scanner/scanner.go, ScanLibrary) -/

/-- Media-file lifecycle states. -/
inductive MFStatus
  | pending
  | success
  | failed
  | deleted
deriving DecidableEq, Repr

/-- A regular file the walk can visit: the basenames of the directories on its
path strictly below the library root, its own basename, and the stat values
the scanner compares (size and mtime at second precision, i.e. Unix()). -/
structure DiskEntry where
  dirs : List String
  name : String
  size : ℤ
  mtime : ℤ
deriving DecidableEq, Repr

/-- The absolute path of a disk entry, as the component list below the root. -/
def entryPath (e : DiskEntry) : List String := e.dirs ++ [e.name]

/-- strings.ToLower(filepath.Ext(path)): the suffix of the basename from its
final dot (dot included), lowercased; empty when the basename has no dot. -/
def lowerExt (name : String) : String :=
  let cs := name.data
  if cs.contains '.' then
    String.mk ('.' :: (cs.reverse.takeWhile (fun c => c ≠ '.')).reverse.map Char.toLower)
  else ""

/-- The supported audio extensions of the scanner. -/
def supportedExtensions : List String :=
  [".flac", ".alac", ".wav", ".aiff", ".aif", ".mp3", ".m4a", ".aac", ".ogg",
   ".opus", ".wma", ".ape", ".wv", ".dsf", ".dff"]

/-- Whether the walk accepts a file: no directory on its path below the root
has a basename starting with a dot (WalkDir skips those subtrees), and its
lower-cased extension is supported. -/
def acceptedFile (e : DiskEntry) : Bool :=
  e.dirs.all (fun d => !(d.startsWith ".")) &&
    supportedExtensions.contains (lowerExt e.name)

/-- The media_files columns the scan reads and writes.  The quick-hash column,
cleared on change, carries no information the claims need and is omitted. -/
structure MediaRow where
  path : List String
  size : ℤ
  mtime : ℤ
  status : MFStatus
deriving DecidableEq, Repr

/-- The row CreateMediaFile inserts for a newly observed file: status
pending. -/
def mkRow (e : DiskEntry) : MediaRow :=
  ⟨entryPath e, e.size, e.mtime, .pending⟩

/-- The UpdateMediaFile call of the changed-file branch: refresh size and
mtime and reset the status to pending on the row at path p. -/
def updateRowMeta (rows : List MediaRow) (p : List String) (e : DiskEntry) :
    List MediaRow :=
  rows.map (fun r =>
    if r.path = p then { r with size := e.size, mtime := e.mtime, status := .pending }
    else r)

/-- Accumulated effect of the walk callback over the accepted files. -/
structure WalkOut where
  rows : List MediaRow
  jobs : List (List String)
  filesNew : ℕ
  filesChanged : ℕ
  found : List (List String)
deriving Repr

/-- The walk callback applied to each accepted file in walk order: a file
whose row matches on size and second-precision mtime is untouched (whatever
its status); a differing row is refreshed and set pending; a file without a
row gets a fresh pending row and an analyze job. -/
def walkFiles : List DiskEntry → List MediaRow → WalkOut
  | [], rows => ⟨rows, [], 0, 0, []⟩
  | e :: es, rows =>
    let p := entryPath e
    match rows.find? (fun r => r.path == p) with
    | some r =>
      if r.size = e.size ∧ r.mtime = e.mtime then
        let o := walkFiles es rows
        ⟨o.rows, o.jobs, o.filesNew, o.filesChanged, p :: o.found⟩
      else
        let o := walkFiles es (updateRowMeta rows p e)
        ⟨o.rows, o.jobs, o.filesNew, o.filesChanged + 1, p :: o.found⟩
    | none =>
      let o := walkFiles es (rows ++ [mkRow e])
      ⟨o.rows, p :: o.jobs, o.filesNew + 1, o.filesChanged, p :: o.found⟩

/-- The counters and final index ScanLibrary produces. -/
structure ScanOut where
  rows : List MediaRow
  jobs : List (List String)
  filesFound : ℕ
  filesNew : ℕ
  filesChanged : ℕ
  filesDeleted : ℕ
deriving Repr

/-- ScanLibrary on one library: filter the walked files through the dot-dir
and extension checks, run the walk callback against the loaded index, then
mark every indexed row whose path was not found as deleted (rows are never
removed), counting each such row in files_deleted. -/
def scanLibrary (disk : List DiskEntry) (rows : List MediaRow) : ScanOut :=
  let acc := disk.filter acceptedFile
  let o := walkFiles acc rows
  let rows2 := o.rows.map (fun r =>
    if r.path ∈ o.found then r else { r with status := .deleted })
  let del := (o.rows.filter (fun r => decide (r.path ∉ o.found))).length
  ⟨rows2, o.jobs, acc.length, o.filesNew, o.filesChanged, del⟩

/-- A one-file library root used in the scan counterexamples: a.flac of one
megabyte with mtime 100. -/
def aFlac : DiskEntry := ⟨[], "a.flac", 1000000, 100⟩

end Ottavia

namespace Ottavia

/-! ## Theorems for claim C7 -/

/-- C7 counterexample: at loudnessRange = 7.9, crestFactor = 0 the code's DR
score is the truncated value 7, while rounding to the nearest integer as the
claim states would give 8. -/
theorem drScore_ne_rounded_at_79_10 :
    drScore (79/10) 0 = 7 ∧ drScoreSpecRounded (79/10) 0 = 8 ∧
      drScore (79/10) 0 ≠ drScoreSpecRounded (79/10) 0 := by
  refine ⟨?_, ?_, ?_⟩ <;> norm_num [drScore, drScoreSpecRounded, truncQ, round_eq]

/-- C7 amended: the DR score in the album consistency view is the value
loudnessRange + crestFactor/2 truncated toward zero and then clamped into
1..20; in particular it is min (max ⌊s⌋ 1) 20 for a nonnegative sum s and 1
for a negative sum. -/
theorem drScore_trunc_clamp (loudnessRange crestFactor : ℚ) :
    drScore loudnessRange crestFactor =
      min (max (truncQ (loudnessRange + crestFactor / 2)) 1) 20 ∧
    (0 ≤ loudnessRange + crestFactor / 2 →
      drScore loudnessRange crestFactor =
        min (max ⌊loudnessRange + crestFactor / 2⌋ 1) 20) ∧
    (loudnessRange + crestFactor / 2 < 0 → drScore loudnessRange crestFactor = 1) :=
  by
  refine ⟨?_, ?_, ?_⟩
  · unfold drScore
    generalize truncQ (loudnessRange + crestFactor / 2) = d
    dsimp only
    split <;> split <;> omega
  · intro h
    have ht : truncQ (loudnessRange + crestFactor / 2) =
        ⌊loudnessRange + crestFactor / 2⌋ := if_pos h
    unfold drScore
    rw [ht]
    generalize ⌊loudnessRange + crestFactor / 2⌋ = d
    dsimp only
    split <;> split <;> omega
  · intro h
    have hceil : ⌈loudnessRange + crestFactor / 2⌉ ≤ 0 :=
      Int.ceil_le.mpr (by push_cast; exact h.le)
    have ht : truncQ (loudnessRange + crestFactor / 2) =
        ⌈loudnessRange + crestFactor / 2⌉ := if_neg (not_le.mpr h)
    unfold drScore
    rw [ht]
    dsimp only
    split <;> split <;> omega

/-- Witness for drScore_trunc_clamp at loudnessRange = 5, crestFactor = 4. -/
theorem drScore_trunc_clamp_witness :
    (0 : ℚ) ≤ 5 + 4 / 2 ∧ drScore 5 4 = min (max ⌊(5 : ℚ) + 4 / 2⌋ 1) 20 :=
  ⟨by norm_num, (drScore_trunc_clamp 5 4).2.1 (by norm_num)⟩

/-! ## Theorems for claim C8 -/

/-- C8 counterexample: for the retained correlations [-1, 1, 1, 1, 1, 1, 1, 1]
only 12.5 percent of the frames are negative, yet the manifest summary
phaseIssue is true because MinCorrelation = -1 < -0.5; so the summary field is
not equivalent to the more-than-25-percent rule. -/
theorem phaseIssueSummary_not_quarter_rule :
    ¬(phaseIssueSummary phaseEx = true ↔ 4 * negCount phaseEx > phaseEx.length) := by
  have hmin : minCorrelation phaseEx = -1 := by
    norm_num [minCorrelation, phaseEx, List.foldl]
  have hneg : negCount phaseEx = 1 := by
    norm_num [negCount, phaseEx, List.filter]
  have hsum : phaseIssueSummary phaseEx = true := by
    simp only [phaseIssueSummary, hmin, Bool.or_eq_true, decide_eq_true_eq]
    left; norm_num
  intro hiff
  have := hiff.mp hsum
  rw [hneg] at this
  simp [phaseEx] at this

/-- C8 amended: the more-than-25-percent-negative rule is exactly the
PhaseIssue field of the stored phase series (negCount > len/4 with integer
division equals the strict rational comparison), while the manifest summary
field phaseIssue is MinCorrelation < -0.5 or AvgCorrelation < 0. -/
theorem phaseIssue_fields (corrs : List ℚ) :
    (phaseIssueSeries corrs = true ↔ 4 * negCount corrs > corrs.length) ∧
    (0 < corrs.length →
      (phaseIssueSeries corrs = true ↔
        (negCount corrs : ℚ) / corrs.length > 1 / 4)) ∧
    (phaseIssueSummary corrs = true ↔
      minCorrelation corrs < -(1/2) ∨ avgCorrelation corrs < 0) := by
  have hdiv : phaseIssueSeries corrs = true ↔ 4 * negCount corrs > corrs.length := by
    simp only [phaseIssueSeries, decide_eq_true_eq, gt_iff_lt]
    rw [Nat.div_lt_iff_lt_mul (by norm_num : 0 < 4)]
    omega
  refine ⟨hdiv, ?_, ?_⟩
  · intro hlen
    have hl : (0 : ℚ) < corrs.length := by exact_mod_cast hlen
    rw [hdiv, gt_iff_lt, gt_iff_lt, div_lt_div_iff (by norm_num : (0 : ℚ) < 4) hl,
      one_mul]
    constructor
    · intro h
      have h4 : (corrs.length : ℚ) < ((negCount corrs * 4 : ℕ) : ℚ) := by
        exact_mod_cast (by omega : corrs.length < negCount corrs * 4)
      push_cast at h4
      linarith
    · intro h
      have h4 : corrs.length < negCount corrs * 4 := by
        have := h
        push_cast at this
        exact_mod_cast this
      omega
  · simp [phaseIssueSummary]

/-- Witness for phaseIssue_fields at the two-frame list [-1, 1]. -/
theorem phaseIssue_fields_witness :
    0 < ([(-1 : ℚ), 1]).length ∧
      (phaseIssueSeries [(-1 : ℚ), 1] = true ↔
        (negCount [(-1 : ℚ), 1] : ℚ) / ([(-1 : ℚ), 1]).length > 1 / 4) :=
  ⟨by decide, (phaseIssue_fields [(-1 : ℚ), 1]).2.1 (by decide)⟩

/-! ## Theorems for claim C9 -/

/-- C9: for a tracked job, GetLogSince returns the entries whose position in
the log is at least sinceIndex, i.e. exactly those strictly after the first
sinceIndex entries, plus nextIndex equal to the total entry count and the job
status; polling again with the returned nextIndex after the log grew by an
append yields precisely the appended entries, so every entry is delivered
exactly once. -/
theorem getLogSince_spec {α : Type} (logs : List (String × JobLogState α))
    (jobID : String) (s : ℤ) (jl : JobLogState α)
    (h : logs.lookup jobID = some jl) (hs : 0 ≤ s) :
    getLogSince logs jobID s =
      some (jl.entries.drop s.toNat, jl.entries.length, jl.status) ∧
    (∀ k, (jl.entries.drop s.toNat).get? k = jl.entries.get? (s.toNat + k)) ∧
    (∀ (logs' : List (String × JobLogState α)) (st' : String) (newEntries : List α),
      logs'.lookup jobID = some ⟨st', jl.entries ++ newEntries⟩ →
      getLogSince logs' jobID (jl.entries.length : ℤ) =
        some (newEntries, jl.entries.length + newEntries.length, st')) := by
  refine ⟨?_, ?_, ?_⟩
  · unfold getLogSince
    rw [h]
    simp only [if_neg (not_lt.mpr hs)]
    split
    · next hle =>
      have hlen : jl.entries.length ≤ s.toNat := by omega
      rw [List.drop_eq_nil_of_le hlen]
    · rfl
  · intro k
    exact List.get?_drop jl.entries s.toNat k
  · intro logs' st' newEntries h'
    unfold getLogSince
    rw [h']
    have hnn : ¬((jl.entries.length : ℤ) < 0) := by omega
    simp only [if_neg hnn]
    split
    · next hle =>
      have hz : newEntries.length = 0 := by
        simp only [List.length_append] at hle
        omega
      have hnil : newEntries = [] := List.length_eq_zero.mp hz
      subst hnil
      simp
    · next hgt =>
      have htn : (jl.entries.length : ℤ).toNat = jl.entries.length := Int.toNat_natCast _
      rw [htn, List.drop_left, List.length_append]

/-- Witness for getLogSince_spec: a three-entry log polled from index 1. -/
theorem getLogSince_spec_witness :
    getLogSince [("j1", (⟨"running", [10, 20, 30]⟩ : JobLogState ℕ))] "j1" 1 =
      some ([20, 30], 3, "running") :=
  (getLogSince_spec [("j1", ⟨"running", [10, 20, 30]⟩)] "j1" 1 ⟨"running", [10, 20, 30]⟩
    rfl (by decide)).1

/-! ## Theorems for claim C10 -/

/-- C10: ArtifactDir returns base/tracks/p/trackID with p the first two
characters whenever the id has at least two characters, panics (modelled as an
error) for shorter ids, and the manifest endpoint forwards the raw URL id
without any length check, so a short id reaches the panicking slice. -/
theorem artifactDir_spec (basePath trackID : String) :
    (2 ≤ trackID.length →
      artifactDir basePath trackID =
        Except.ok (basePath ++ "/tracks/" ++ trackID.take 2 ++ "/" ++ trackID)) ∧
    (trackID.length < 2 →
      artifactDir basePath trackID = Except.error "slice bounds out of range") ∧
    (∀ (M : Type) (load : String → Option M), trackID.length < 2 →
      getManifestEndpoint load basePath trackID =
        Except.error "slice bounds out of range") := by
  refine ⟨?_, ?_, ?_⟩
  · intro h
    unfold artifactDir
    rw [if_pos h]
  · intro h
    unfold artifactDir
    rw [if_neg (by omega)]
  · intro M load h
    unfold getManifestEndpoint artifactDir
    rw [if_neg (by omega)]

/-- Witness for artifactDir_spec: a two-character id shards normally and a
one-character id reaches the panic in the manifest endpoint. -/
theorem artifactDir_spec_witness :
    artifactDir "art" "b3" = Except.ok ("art" ++ "/tracks/" ++ "b3".take 2 ++ "/" ++ "b3") ∧
    getManifestEndpoint (fun _ => (none : Option ℕ)) "art" "x" =
      Except.error "slice bounds out of range" :=
  ⟨(artifactDir_spec "art" "b3").1 (by decide),
   (artifactDir_spec "art" "x").2.2 ℕ (fun _ => none) (by decide)⟩

/-! ## Theorems for claim C3 -/

/-- Helper: wrap64 is the identity on values already in the int64 range. -/
theorem wrap64_eq_self (x : ℤ) (h1 : -(2 ^ 63) ≤ x) (h2 : x < 2 ^ 63) :
    wrap64 x = x := by
  unfold wrap64
  rw [Int.emod_eq_of_lt (by linarith) (by norm_num; linarith)]
  ring

/-- Helper: for attempts up to 27 the computed backoff is exactly 2^attempts
minutes in nanoseconds, with no wraparound. -/
theorem backoffNs_eq_pow (n : ℕ) (hn : n ≤ 27) :
    backoffNs n = 2 ^ n * 60000000000 := by
  have hpow : (2 : ℤ) ^ n ≤ 2 ^ 27 := by
    exact pow_le_pow_right (by norm_num) hn
  have hpos : (0 : ℤ) < 2 ^ n := by positivity
  have hsmall : (2 : ℤ) ^ n < 2 ^ 63 := by
    calc (2 : ℤ) ^ n ≤ 2 ^ 27 := hpow
    _ < 2 ^ 63 := by norm_num
  have hshift : shiftOne64 n = 2 ^ n := by
    unfold shiftOne64
    exact wrap64_eq_self _ (le_trans (by norm_num) hpos.le) hsmall
  unfold backoffNs
  rw [hshift]
  refine wrap64_eq_self _ (le_trans (show -(2 ^ 63 : ℤ) ≤ 0 by norm_num) (by positivity)) ?_
  calc (2 : ℤ) ^ n * 60000000000 ≤ 2 ^ 27 * 60000000000 := by
        exact mul_le_mul_of_nonneg_right hpow (by norm_num)
  _ < 2 ^ 63 := by norm_num

/-- C3 counterexample: a job failing on its seventh attempt (max_attempts 9)
is requeued 128 minutes in the future; the claimed formula
min(2^attempts minutes, 1 hour) would give 60 minutes, and the actual delay
exceeds 1 hour. -/
theorem backoff_uncapped_at_attempt_7 :
    (processFailure 0 ⟨6, 9, .running, 0, none⟩).status = .queued ∧
    (processFailure 0 ⟨6, 9, .running, 0, none⟩).scheduledAt = 7680000000000 ∧
    backoffSpecNs 7 = 3600000000000 ∧
    (processFailure 0 ⟨6, 9, .running, 0, none⟩).scheduledAt ≠ 0 + backoffSpecNs 7 ∧
    ¬((processFailure 0 ⟨6, 9, .running, 0, none⟩).scheduledAt ≤ 3600000000000) := by
  have hb : backoffNs 7 = 7680000000000 := by
    rw [backoffNs_eq_pow 7 (by norm_num)]; norm_num
  have hp : processFailure 0 ⟨6, 9, .running, 0, none⟩ =
      ⟨7, 9, .queued, 0 + backoffNs 7, none⟩ := by
    unfold processFailure
    norm_num
  rw [hp, hb]
  refine ⟨rfl, by norm_num, by norm_num [backoffSpecNs], by norm_num [backoffSpecNs], by norm_num⟩

/-- C3 amended: a failing job with attempts remaining is requeued with
scheduled_at = now + 2^attempts minutes, with no 1-hour cap: the formula is
exact and monotone for attempts up to 27, and from attempt 7 on the delay
already exceeds one hour. -/
theorem processFailure_requeue_backoff (now : ℤ) (j : WJob)
    (hretry : j.attempts + 1 < j.maxAttempts) :
    (processFailure now j).status = .queued ∧
    (processFailure now j).attempts = j.attempts + 1 ∧
    (processFailure now j).scheduledAt = now + backoffNs (j.attempts + 1) ∧
    (∀ n : ℕ, n ≤ 27 → backoffNs n = 2 ^ n * 60000000000) ∧
    (∀ n : ℕ, n ≤ 26 → backoffNs n ≤ backoffNs (n + 1)) ∧
    (7 ≤ j.attempts + 1 → j.attempts + 1 ≤ 27 →
      3600000000000 < backoffNs (j.attempts + 1)) := by
  have hcase : ¬(j.attempts + 1 ≥ j.maxAttempts) := by omega
  have hp : processFailure now j =
      { j with attempts := j.attempts + 1, status := .queued,
               scheduledAt := now + backoffNs (j.attempts + 1) } := by
    unfold processFailure
    rw [if_neg hcase]
  refine ⟨by rw [hp], by rw [hp], by rw [hp], backoffNs_eq_pow, ?_, ?_⟩
  · intro n hn
    rw [backoffNs_eq_pow n (by omega), backoffNs_eq_pow (n + 1) (by omega)]
    have : (2 : ℤ) ^ n ≤ 2 ^ (n + 1) := by
      exact pow_le_pow_right (by norm_num) (by omega)
    exact mul_le_mul_of_nonneg_right this (by norm_num)
  · intro h7 h27
    rw [backoffNs_eq_pow _ h27]
    have : (2 : ℤ) ^ 7 ≤ 2 ^ (j.attempts + 1) := by
      exact pow_le_pow_right (by norm_num) h7
    nlinarith [this]

/-- Witness for processFailure_requeue_backoff: first failure of a fresh job
with the default max_attempts of 3. -/
theorem processFailure_requeue_backoff_witness :
    0 + 1 < 3 ∧ (processFailure 100 ⟨0, 3, .running, 0, none⟩).scheduledAt =
      100 + backoffNs 1 :=
  ⟨by norm_num, (processFailure_requeue_backoff 100 ⟨0, 3, .running, 0, none⟩
    (by norm_num)).2.2.1⟩

/-! ## Theorems for claim C4 -/

/-- C4 counterexample: when the final rename fails and the backup is restored,
atomicWrite reports failure with the original content back at the original
path, but the temp file is left on disk rather than deleted as the claim
states. -/
theorem atomicWrite_leaves_temp_on_rename_failure :
    (atomicWrite 0 1 renameFailEnv).1 = .renameFailed ∧
    (atomicWrite 0 1 renameFailEnv).2.orig = some 0 ∧
    (atomicWrite 0 1 renameFailEnv).2.temp = some 1 ∧
    (atomicWrite 0 1 renameFailEnv).2.temp ≠ none := by decide

/-- C4 amended: assuming the reverse rename in the recovery path succeeds,
every failing atomicWrite leaves the original content at the original path;
a muxer failure leaves no temp file; a final-rename failure restores the
backup via the reverse rename but leaves the temp file in place; a successful
write installs the new content with temp and backup removed. -/
theorem atomicWrite_failure_preserves_original (origContent newContent : ℕ)
    (env : WriteEnv) (hrestore : env.restoreRenameOk = true) :
    ((atomicWrite origContent newContent env).1 ≠ .ok →
      (atomicWrite origContent newContent env).2.orig = some origContent) ∧
    ((atomicWrite origContent newContent env).1 = .muxFailed →
      (atomicWrite origContent newContent env).2.temp = none) ∧
    ((atomicWrite origContent newContent env).1 = .renameFailed →
      (atomicWrite origContent newContent env).2.backup = none ∧
      (atomicWrite origContent newContent env).2.temp = some newContent) ∧
    ((atomicWrite origContent newContent env).1 = .ok →
      (atomicWrite origContent newContent env).2 =
        ⟨some newContent, none, none⟩) := by
  rcases env with ⟨m, w, b, f, r⟩
  cases m <;> cases w <;> cases b <;> cases f <;> cases r <;>
    simp_all [atomicWrite]

/-- Witness for atomicWrite_failure_preserves_original: a muxer failure leaves
the original content untouched. -/
theorem atomicWrite_failure_preserves_original_witness :
    (atomicWrite 5 7 ⟨false, true, true, true, true⟩).2.orig = some 5 :=
  (atomicWrite_failure_preserves_original 5 7 ⟨false, true, true, true, true⟩ rfl).1
    (by decide)

/-! ## Theorems for claim C2 -/

/-- Helper: the claim order is irreflexive. -/
theorem preferOver_irrefl (j : QJob) : preferOver j j = false := by
  simp [preferOver]

/-- Helper: semantics of not preceding in the claim order. -/
theorem preferOver_false_iff (a b : QJob) :
    preferOver a b = false ↔
      a.priority ≤ b.priority ∧
        (a.priority = b.priority → b.scheduledAt ≤ a.scheduledAt) := by
  simp only [preferOver, Bool.or_eq_false_iff, Bool.and_eq_false_iff,
    decide_eq_false_iff_not, not_lt]
  constructor
  · rintro ⟨h1, h2⟩
    refine ⟨h1, fun he => ?_⟩
    rcases h2 with h | h
    · exact absurd he h
    · exact h
  · rintro ⟨h1, h2⟩
    refine ⟨h1, ?_⟩
    by_cases he : a.priority = b.priority
    · exact Or.inr (h2 he)
    · exact Or.inl he

/-- Helper: semantics of preceding in the claim order. -/
theorem preferOver_true_iff (a b : QJob) :
    preferOver a b = true ↔
      b.priority < a.priority ∨
        (a.priority = b.priority ∧ a.scheduledAt < b.scheduledAt) := by
  simp [preferOver]

/-- Helper: not preceding is transitive in the claim order. -/
theorem notPreferOver_trans {x y z : QJob}
    (h1 : preferOver x y = false) (h2 : preferOver y z = false) :
    preferOver x z = false := by
  rw [preferOver_false_iff] at h1 h2 ⊢
  constructor
  · omega
  · intro he
    omega

/-- Helper: a row preceded by j cannot precede anything j does not precede. -/
theorem notPreferOver_of_preferOver {j a b : QJob}
    (h1 : preferOver j a = true) (h2 : preferOver j b = false) :
    preferOver a b = false := by
  rw [preferOver_true_iff] at h1
  rw [preferOver_false_iff] at h2 ⊢
  constructor
  · omega
  · intro he
    omega

/-- Helper: folding the claim step over ineligible rows changes nothing. -/
theorem claimFold_of_none (now : ℤ) (jt : String) :
    ∀ (l : List QJob) (acc : Option QJob),
      (∀ j ∈ l, eligible now jt j = false) →
      l.foldl (claimStep now jt) acc = acc := by
  intro l
  induction l with
  | nil => intro acc _; rfl
  | cons j l ih =>
    intro acc hl
    have hj : eligible now jt j = false := hl j (List.mem_cons_self j l)
    have : claimStep now jt acc j = acc := by
      unfold claimStep
      rw [hj]
      simp
    rw [List.foldl_cons, this]
    exact ih acc fun x hx => hl x (List.mem_cons_of_mem j hx)

/-- Helper: invariant of the claim-order fold: the result is an eligible row
that nothing eligible in the list strictly precedes, and that the accumulator
does not strictly precede. -/
theorem claimFold_spec (now : ℤ) (jt : String) :
    ∀ (l : List QJob) (acc : Option QJob),
      (∀ b, acc = some b → eligible now jt b = true) →
      ((l.foldl (claimStep now jt) acc = none →
          acc = none ∧ ∀ j ∈ l, eligible now jt j = false) ∧
       (∀ b, l.foldl (claimStep now jt) acc = some b →
          eligible now jt b = true ∧
          (b ∈ l ∨ acc = some b) ∧
          (∀ j ∈ l, eligible now jt j = true → preferOver j b = false) ∧
          (∀ a, acc = some a → preferOver a b = false))) := by
  intro l
  induction l with
  | nil =>
    intro acc hacc
    simp only [List.foldl_nil]
    constructor
    · intro h
      exact ⟨h, by simp⟩
    · intro b hb
      refine ⟨hacc b hb, Or.inr hb, by simp, fun a ha => ?_⟩
      rw [ha] at hb
      injection hb with h
      rw [h]
      exact preferOver_irrefl b
  | cons j l ih =>
    intro acc hacc
    rw [List.foldl_cons]
    by_cases he : eligible now jt j = true
    · rcases acc with _ | a
      · have hstep : claimStep now jt none j = some j := by
          unfold claimStep
          rw [if_pos he]
        rw [hstep]
        have ihj := ih (some j) (fun b hb => by injection hb with h; rw [← h]; exact he)
        constructor
        · intro hnone
          obtain ⟨h1, _⟩ := ihj.1 hnone
          cases h1
        · intro b hb
          obtain ⟨hb1, hb2, hb3, hb4⟩ := ihj.2 b hb
          refine ⟨hb1, ?_, ?_, ?_⟩
          · rcases hb2 with h | h
            · exact Or.inl (List.mem_cons_of_mem j h)
            · injection h with h
              rw [← h]
              exact Or.inl (List.mem_cons_self j l)
          · intro x hx hex
            rcases List.mem_cons.mp hx with h | h
            · subst h
              exact hb4 x rfl
            · exact hb3 x h hex
          · intro a0 ha0
            cases ha0
      · have ha : eligible now jt a = true := hacc a rfl
        have hstep : claimStep now jt (some a) j =
            (if preferOver j a = true then some j else some a) := by
          unfold claimStep
          rw [if_pos he]
        rw [hstep]
        by_cases hp : preferOver j a = true
        · rw [if_pos hp]
          have ihj := ih (some j) (fun b hb => by injection hb with h; rw [← h]; exact he)
          constructor
          · intro hnone
            obtain ⟨h1, _⟩ := ihj.1 hnone
            cases h1
          · intro b hb
            obtain ⟨hb1, hb2, hb3, hb4⟩ := ihj.2 b hb
            have hjb : preferOver j b = false := hb4 j rfl
            refine ⟨hb1, ?_, ?_, ?_⟩
            · rcases hb2 with h | h
              · exact Or.inl (List.mem_cons_of_mem j h)
              · injection h with h
                rw [← h]
                exact Or.inl (List.mem_cons_self j l)
            · intro x hx hex
              rcases List.mem_cons.mp hx with h | h
              · subst h
                exact hjb
              · exact hb3 x h hex
            · intro a0 ha0
              injection ha0 with h
              rw [← h]
              exact notPreferOver_of_preferOver hp hjb
        · have hpf : preferOver j a = false := by
            revert hp
            cases preferOver j a <;> simp
          rw [if_neg hp]
          have ihj := ih (some a) (fun b hb => by injection hb with h; rw [← h]; exact ha)
          constructor
          · intro hnone
            obtain ⟨h1, _⟩ := ihj.1 hnone
            cases h1
          · intro b hb
            obtain ⟨hb1, hb2, hb3, hb4⟩ := ihj.2 b hb
            have hab : preferOver a b = false := hb4 a rfl
            refine ⟨hb1, ?_, ?_, ?_⟩
            · rcases hb2 with h | h
              · exact Or.inl (List.mem_cons_of_mem j h)
              · exact Or.inr h
            · intro x hx hex
              rcases List.mem_cons.mp hx with h | h
              · subst h
                exact notPreferOver_trans hpf hab
              · exact hb3 x h hex
            · intro a0 ha0
              injection ha0 with h
              rw [← h]
              exact hab
    · have hef : eligible now jt j = false := by
        revert he
        cases eligible now jt j <;> simp
      have hstep : claimStep now jt acc j = acc := by
        unfold claimStep
        rw [hef]
        simp
      rw [hstep]
      have iha := ih acc hacc
      constructor
      · intro hnone
        obtain ⟨h1, h2⟩ := iha.1 hnone
        refine ⟨h1, fun x hx => ?_⟩
        rcases List.mem_cons.mp hx with h | h
        · subst h
          exact hef
        · exact h2 x h
      · intro b hb
        obtain ⟨hb1, hb2, hb3, hb4⟩ := iha.2 b hb
        refine ⟨hb1, ?_, ?_, hb4⟩
        · rcases hb2 with h | h
          · exact Or.inl (List.mem_cons_of_mem j h)
          · exact Or.inr h
        · intro x hx hex
          rcases List.mem_cons.mp hx with h | h
          · subst h
            rw [hef] at hex
            cases hex
          · exact hb3 x h hex

/-- Helper: a row marked running is never eligible for a later claim. -/
theorem eligible_markRunning (now now' : ℤ) (jt : String) (j : QJob) :
    eligible now' jt (markRunning now j) = false := by
  simp [eligible, markRunning]

/-- Helper: unfolding GetNextJob when the claim query finds no row. -/
theorem getNextJob_fst_none (now : ℤ) (jt : String) (jobs : List QJob)
    (h : selectNext now jt jobs = none) : getNextJob now jt jobs = (none, jobs) := by
  unfold getNextJob
  rw [h]

/-- Helper: the returned row when the claim query selects j0. -/
theorem getNextJob_fst_some (now : ℤ) (jt : String) (jobs : List QJob) (j0 : QJob)
    (h : selectNext now jt jobs = some j0) :
    (getNextJob now jt jobs).1 = some (markRunning now j0) := by
  unfold getNextJob
  rw [h]

/-- Helper: the updated table when the claim query selects j0. -/
theorem getNextJob_snd_some (now : ℤ) (jt : String) (jobs : List QJob) (j0 : QJob)
    (h : selectNext now jt jobs = some j0) :
    (getNextJob now jt jobs).2 =
      jobs.map (fun x => if x.id = j0.id then markRunning now x else x) := by
  unfold getNextJob
  rw [h]

/-- C2: GetNextJob returns none and leaves the table unchanged exactly when no
job of the type is queued with scheduled_at due; otherwise it returns a due
queued job of maximal priority (oldest scheduled_at among that priority),
transitions exactly that row to running with started_at = now, and a second
claim on the resulting table never returns the same job id - the serialized
transaction makes this the behaviour concurrent callers observe. -/
theorem getNextJob_spec (now : ℤ) (jt : String) (jobs : List QJob)
    (hids : (jobs.map QJob.id).Nodup) :
    ((getNextJob now jt jobs).1 = none →
      (getNextJob now jt jobs).2 = jobs ∧ ∀ j ∈ jobs, eligible now jt j = false) ∧
    ((∀ j ∈ jobs, eligible now jt j = false) → (getNextJob now jt jobs).1 = none) ∧
    (∀ jr, (getNextJob now jt jobs).1 = some jr →
      ∃ j0, j0 ∈ jobs ∧ jr = markRunning now j0 ∧ eligible now jt j0 = true ∧
        jr.status = .running ∧ jr.startedAt = some now ∧
        (∀ j' ∈ jobs, eligible now jt j' = true →
          j'.priority < j0.priority ∨
            (j'.priority = j0.priority ∧ j0.scheduledAt ≤ j'.scheduledAt)) ∧
        (getNextJob now jt jobs).2 =
          jobs.map (fun x => if x.id = j0.id then markRunning now x else x)) ∧
    (∀ jr1 jr2, (getNextJob now jt jobs).1 = some jr1 →
      (getNextJob now jt (getNextJob now jt jobs).2).1 = some jr2 →
      jr1.id ≠ jr2.id) := by
  have hfold := claimFold_spec now jt jobs none (fun b hb => by cases hb)
  rcases hsel : selectNext now jt jobs with _ | j0
  · have heq := getNextJob_fst_none now jt jobs hsel
    refine ⟨?_, ?_, ?_, ?_⟩
    · intro _
      exact ⟨by rw [heq], (hfold.1 hsel).2⟩
    · intro _
      rw [heq]
    · intro jr hjr
      rw [heq] at hjr
      cases hjr
    · intro jr1 jr2 h1 _
      rw [heq] at h1
      cases h1
  · obtain ⟨hb1, hb2, hb3, _⟩ := hfold.2 j0 hsel
    have hmem : j0 ∈ jobs := by
      rcases hb2 with h | h
      · exact h
      · cases h
    refine ⟨?_, ?_, ?_, ?_⟩
    · intro hnone
      rw [getNextJob_fst_some now jt jobs j0 hsel] at hnone
      exact Option.noConfusion hnone
    · intro hall
      have := hall j0 hmem
      rw [this] at hb1
      exact Bool.noConfusion hb1
    · intro jr hjr
      rw [getNextJob_fst_some now jt jobs j0 hsel] at hjr
      injection hjr with hjr
      refine ⟨j0, hmem, hjr.symm, hb1, ?_, ?_, ?_, ?_⟩
      · rw [← hjr]
        rfl
      · rw [← hjr]
        rfl
      · intro j' hj' he'
        have hpf := (preferOver_false_iff j' j0).mp (hb3 j' hj' he')
        by_cases hpe : j'.priority = j0.priority
        · exact Or.inr ⟨hpe, hpf.2 hpe⟩
        · exact Or.inl (lt_of_le_of_ne hpf.1 hpe)
      · exact getNextJob_snd_some now jt jobs j0 hsel
    · intro jr1 jr2 h1 h2
      rw [getNextJob_fst_some now jt jobs j0 hsel] at h1
      injection h1 with h1
      rw [getNextJob_snd_some now jt jobs j0 hsel] at h2
      rcases hsel2 : selectNext now jt
          (jobs.map (fun x => if x.id = j0.id then markRunning now x else x)) with _ | j1
      · rw [getNextJob_fst_none now jt _ hsel2] at h2
        exact Option.noConfusion h2.symm.symm
      · rw [getNextJob_fst_some now jt _ j1 hsel2] at h2
        injection h2 with h2
        have hfold2 := claimFold_spec now jt
          (jobs.map (fun x => if x.id = j0.id then markRunning now x else x)) none
          (fun b hb => by cases hb)
        obtain ⟨he1, hm1, _, _⟩ := hfold2.2 j1 hsel2
        have hmem1 : j1 ∈ jobs.map (fun x => if x.id = j0.id then markRunning now x else x) := by
          rcases hm1 with h | h
          · exact h
          · cases h
        obtain ⟨x, hx, hxe⟩ := List.mem_map.mp hmem1
        intro hid
        rw [← h1, ← h2] at hid
        simp only [markRunning] at hid
        by_cases hxid : x.id = j0.id
        · rw [if_pos hxid] at hxe
          rw [← hxe] at he1
          rw [eligible_markRunning] at he1
          exact Bool.noConfusion he1
        · rw [if_neg hxid] at hxe
          have hj1x : j1.id = x.id := by
            rw [← hxe]
          rw [hj1x] at hid
          exact hxid hid.symm

/-- Witness for getNextJob_spec: a table holding only a convert job yields no
analyze claim. -/
theorem getNextJob_spec_witness :
    (getNextJob 100 "analyze" [⟨1, "convert", .queued, 0, 50, none⟩]).1 = none :=
  (getNextJob_spec 100 "analyze" [⟨1, "convert", .queued, 0, 50, none⟩]
    (by decide)).2.1 (by decide)

/-! ## Theorems for claim C6 -/

/-- C6 counterexample: with the input file always accessible and every
execution failing with a retryable stderr, the shim executes the command six
times, not at most five. -/
theorem runFFmpegWithRetry_runs_six_times :
    (runFFmpegWithRetry allRetryEnv).execIdxs = [0, 1, 2, 3, 4, 5] ∧
    (runFFmpegWithRetry allRetryEnv).execIdxs.length = 6 ∧
    ¬((runFFmpegWithRetry allRetryEnv).execIdxs.length ≤ 5) ∧
    (runFFmpegWithRetry allRetryEnv).sleeps = [1, 2, 4, 8, 16] := by
  decide

/-- Helper: doubling with the 16 cap advances the closed-form backoff. -/
theorem doubleCapped_capSeq (k : ℕ) : doubleCapped (capSeq k) = capSeq (k + 1) := by
  rcases le_or_lt k 3 with hk | hk
  · interval_cases k <;> decide
  · have h16 : 16 ≤ 2 ^ k := by
      calc (16 : ℕ) = 2 ^ 4 := by norm_num
      _ ≤ 2 ^ k := Nat.pow_le_pow_right (by norm_num) (by omega)
    have h16' : 16 ≤ 2 ^ (k + 1) := by
      calc (16 : ℕ) ≤ 2 ^ k := h16
      _ ≤ 2 ^ (k + 1) := Nat.pow_le_pow_right (by norm_num) (by omega)
    unfold doubleCapped capSeq
    rw [min_eq_right h16, min_eq_right h16']
    norm_num

/-- Helper: the capped doubling chain shifts by one position across a cons. -/
theorem capSeq_shift_map (k m : ℕ) :
    (List.range (m + 1)).map (fun i => capSeq (k + i)) =
      capSeq k :: (List.range m).map (fun i => capSeq (k + 1 + i)) := by
  rw [List.range_succ_eq_map]
  simp only [List.map_cons, Nat.add_zero, List.map_map]
  congr 1
  apply List.map_congr_left
  intro i _
  simp only [Function.comp_apply]
  congr 1
  omega

/-- Helper: invariant of the retry loop, generalized over the attempt index,
the backoff position in the doubling chain, and the remaining fuel. -/
theorem retryLoop_spec (env : ℕ → DecodeAttempt) :
    ∀ (fuel att k : ℕ),
      (retryLoop env fuel att (capSeq k)).execIdxs.length ≤ fuel ∧
      (∃ m, m ≤ fuel - 1 ∧
        (retryLoop env fuel att (capSeq k)).sleeps =
          (List.range m).map (fun i => capSeq (k + i))) ∧
      (∀ i ∈ (retryLoop env fuel att (capSeq k)).execIdxs, (env i).statOk = true) ∧
      (∀ i, (retryLoop env fuel att (capSeq k)).outcome = .cmdFailed i → 0 < fuel →
        (env i).execOk = false ∧
          (isRetryableStderr (env i).stderr = false ∨ i + 1 = att + fuel)) ∧
      (∀ i, (retryLoop env fuel att (capSeq k)).outcome = .succeeded i →
        (env i).execOk = true) := by
  intro fuel
  induction fuel with
  | zero =>
    intro att k
    refine ⟨by simp [retryLoop], ⟨0, by simp [retryLoop]⟩, ?_, ?_, ?_⟩
    · intro i hi
      simp [retryLoop] at hi
    · intro i hi h0
      omega
    · intro i hi
      simp [retryLoop] at hi
  | succ fuel ih =>
    intro att k
    by_cases hstat : (env att).statOk = false
    · by_cases hf : fuel = 0
      · subst hf
        have hred : retryLoop env 1 att (capSeq k) = ⟨[], [], .statGaveUp att⟩ := by
          unfold retryLoop
          rw [if_pos hstat, if_pos rfl]
        rw [hred]
        refine ⟨by simp, ⟨0, by simp⟩, by simp, ?_, by simp⟩
        intro i hi
        cases hi
      · obtain ⟨ih1, ⟨m, hm, hms⟩, ih3, ih4, ih5⟩ := ih (att + 1) (k + 1)
        have hred : retryLoop env (fuel + 1) att (capSeq k) =
            ⟨(retryLoop env fuel (att + 1) (capSeq (k + 1))).execIdxs,
             capSeq k :: (retryLoop env fuel (att + 1) (capSeq (k + 1))).sleeps,
             (retryLoop env fuel (att + 1) (capSeq (k + 1))).outcome⟩ := by
          conv_lhs => unfold retryLoop
          rw [if_pos hstat, if_neg hf, doubleCapped_capSeq]
        rw [hred]
        refine ⟨by simpa using Nat.le_succ_of_le ih1, ⟨m + 1, by omega, ?_⟩, ih3, ?_, ih5⟩
        · show capSeq k :: (retryLoop env fuel (att + 1) (capSeq (k + 1))).sleeps =
              (List.range (m + 1)).map (fun i => capSeq (k + i))
          rw [capSeq_shift_map, hms]
        · intro i hi h0
          obtain ⟨h1, h2⟩ := ih4 i hi (by omega)
          refine ⟨h1, ?_⟩
          rcases h2 with h | h
          · exact Or.inl h
          · exact Or.inr (by omega)
    · have hstat' : (env att).statOk = true := by
        revert hstat
        cases (env att).statOk <;> simp
      by_cases hexec : (env att).execOk = true
      · have hred : retryLoop env (fuel + 1) att (capSeq k) =
            ⟨[att], [], .succeeded att⟩ := by
          unfold retryLoop
          rw [if_neg (by rw [hstat']; simp), if_pos hexec]
        rw [hred]
        refine ⟨by simp, ⟨0, by simp⟩, ?_, ?_, ?_⟩
        · intro i hi
          simp at hi
          subst hi
          exact hstat'
        · intro i hi
          cases hi
        · intro i hi
          cases hi
          exact hexec
      · have hexec' : (env att).execOk = false := by
          revert hexec
          cases (env att).execOk <;> simp
        by_cases hretry : isRetryableStderr (env att).stderr = true ∧ fuel ≠ 0
        · obtain ⟨ih1, ⟨m, hm, hms⟩, ih3, ih4, ih5⟩ := ih (att + 1) (k + 1)
          have hred : retryLoop env (fuel + 1) att (capSeq k) =
              ⟨att :: (retryLoop env fuel (att + 1) (capSeq (k + 1))).execIdxs,
               capSeq k :: (retryLoop env fuel (att + 1) (capSeq (k + 1))).sleeps,
               (retryLoop env fuel (att + 1) (capSeq (k + 1))).outcome⟩ := by
            conv_lhs => unfold retryLoop
            rw [if_neg (by rw [hstat']; simp), if_neg (by rw [hexec']; simp),
              if_pos hretry, doubleCapped_capSeq]
          rw [hred]
          refine ⟨by simpa using Nat.succ_le_succ ih1, ⟨m + 1, by omega, ?_⟩, ?_, ?_, ih5⟩
          · show capSeq k :: (retryLoop env fuel (att + 1) (capSeq (k + 1))).sleeps =
                (List.range (m + 1)).map (fun i => capSeq (k + i))
            rw [capSeq_shift_map, hms]
          · intro i hi
            rcases List.mem_cons.mp hi with h | h
            · subst h
              exact hstat'
            · exact ih3 i h
          · intro i hi h0
            obtain ⟨h1, h2⟩ := ih4 i hi (by omega)
            refine ⟨h1, ?_⟩
            rcases h2 with h | h
            · exact Or.inl h
            · exact Or.inr (by omega)
        · have hred : retryLoop env (fuel + 1) att (capSeq k) =
              ⟨[att], [], .cmdFailed att⟩ := by
            unfold retryLoop
            rw [if_neg (by rw [hstat']; simp), if_neg (by rw [hexec']; simp),
              if_neg hretry]
          rw [hred]
          refine ⟨by simp, ⟨0, by simp⟩, ?_, ?_, ?_⟩
          · intro i hi
            simp at hi
            subst hi
            exact hstat'
          · intro i hi _
            cases hi
            rcases Decidable.not_and_iff_or_not.mp hretry with h | h
            · refine ⟨hexec', Or.inl ?_⟩
              revert h
              cases isRetryableStderr (env att).stderr <;> simp
            · have : fuel = 0 := by omega
              exact ⟨hexec', Or.inr (by omega)⟩
          · intro i hi
            cases hi

/-- C6 amended: the shim executes the decode command at most six times (one
initial attempt plus up to five retries), runs it only on attempts whose stat
check passed, sleeps a prefix of the 1, 2, 4, 8, 16 second doubling-capped
chain, and surfaces a command failure only when its stderr matches no
retryable pattern or the last attempt (number 5) was reached. -/
theorem runFFmpegWithRetry_spec (env : ℕ → DecodeAttempt) :
    (runFFmpegWithRetry env).execIdxs.length ≤ 6 ∧
    (∃ m, m ≤ 5 ∧ (runFFmpegWithRetry env).sleeps = List.take m [1, 2, 4, 8, 16]) ∧
    (∀ s ∈ (runFFmpegWithRetry env).sleeps, 1 ≤ s ∧ s ≤ 16) ∧
    (∀ i ∈ (runFFmpegWithRetry env).execIdxs, (env i).statOk = true) ∧
    (∀ i, (runFFmpegWithRetry env).outcome = .cmdFailed i →
      (env i).execOk = false ∧ (isRetryableStderr (env i).stderr = false ∨ i = 5)) ∧
    (∀ i, (runFFmpegWithRetry env).outcome = .succeeded i →
      (env i).execOk = true) := by
  have hcap : (1 : ℕ) = capSeq 0 := by decide
  have hspec := retryLoop_spec env 6 0 0
  rw [← hcap] at hspec
  obtain ⟨h1, ⟨m, hm, hms⟩, h3, h4, h5⟩ := hspec
  have hms' : (runFFmpegWithRetry env).sleeps = List.take m [1, 2, 4, 8, 16] := by
    unfold runFFmpegWithRetry
    rw [hms]
    have hm5 : m ≤ 5 := by omega
    interval_cases m <;> decide
  refine ⟨h1, ⟨m, by omega, hms'⟩, ?_, h3, ?_, h5⟩
  · intro s hs
    rw [hms'] at hs
    have : s ∈ [1, 2, 4, 8, 16] := List.take_subset m _ hs
    fin_cases this <;> omega
  · intro i hi
    obtain ⟨ha, hb⟩ := h4 i hi (by norm_num)
    refine ⟨ha, ?_⟩
    rcases hb with h | h
    · exact Or.inl h
    · exact Or.inr (by omega)

/-- Witness for runFFmpegWithRetry_spec: the environment that always fails
retryably sleeps the full capped chain. -/
theorem runFFmpegWithRetry_spec_witness :
    ∃ m, m ≤ 5 ∧
      (runFFmpegWithRetry (fun _ => ⟨true, false, "Stale file handle"⟩)).sleeps =
        List.take m [1, 2, 4, 8, 16] :=
  (runFFmpegWithRetry_spec (fun _ => ⟨true, false, "Stale file handle"⟩)).2.1

/-! ## Theorems for claims C1 and C5 -/

/-- Helper: refreshing one row's stat fields leaves the path column of the
index unchanged. -/
theorem updateRowMeta_paths (rows : List MediaRow) (p : List String) (e : DiskEntry) :
    (updateRowMeta rows p e).map MediaRow.path = rows.map MediaRow.path := by
  unfold updateRowMeta
  rw [List.map_map]
  apply List.map_congr_left
  intro r _
  simp only [Function.comp_apply]
  split <;> rfl

/-- Helper: with unique paths, the path lookup finds exactly the member row. -/
theorem find?_path_eq_some {rows : List MediaRow} {r : MediaRow}
    (hnd : (rows.map MediaRow.path).Nodup) (hr : r ∈ rows) :
    rows.find? (fun x => x.path == r.path) = some r := by
  induction rows with
  | nil => cases hr
  | cons h t ih =>
    rcases List.mem_cons.mp hr with he | ht
    · subst he
      rw [List.find?_cons_of_pos _ (by simp)]
    · have hnd' := hnd
      rw [List.map_cons, List.nodup_cons] at hnd'
      have hne : h.path ≠ r.path := by
        intro hcontra
        exact hnd'.1 (hcontra ▸ List.mem_map_of_mem MediaRow.path ht)
      rw [List.find?_cons_of_neg _ (by simpa using hne)]
      exact ih hnd'.2 ht

/-- Helper: unfolding the walk callback on an unchanged file. -/
theorem walkFiles_cons_unchanged (e : DiskEntry) (es : List DiskEntry)
    (rows : List MediaRow) (r0 : MediaRow)
    (hfind : rows.find? (fun x => x.path == entryPath e) = some r0)
    (hmeta : r0.size = e.size ∧ r0.mtime = e.mtime) :
    walkFiles (e :: es) rows =
      ⟨(walkFiles es rows).rows, (walkFiles es rows).jobs,
       (walkFiles es rows).filesNew, (walkFiles es rows).filesChanged,
       entryPath e :: (walkFiles es rows).found⟩ := by
  conv_lhs => unfold walkFiles
  simp only [hfind]
  rw [if_pos hmeta]

/-- Helper: unfolding the walk callback on a changed file. -/
theorem walkFiles_cons_changed (e : DiskEntry) (es : List DiskEntry)
    (rows : List MediaRow) (r0 : MediaRow)
    (hfind : rows.find? (fun x => x.path == entryPath e) = some r0)
    (hmeta : ¬(r0.size = e.size ∧ r0.mtime = e.mtime)) :
    walkFiles (e :: es) rows =
      ⟨(walkFiles es (updateRowMeta rows (entryPath e) e)).rows,
       (walkFiles es (updateRowMeta rows (entryPath e) e)).jobs,
       (walkFiles es (updateRowMeta rows (entryPath e) e)).filesNew,
       (walkFiles es (updateRowMeta rows (entryPath e) e)).filesChanged + 1,
       entryPath e :: (walkFiles es (updateRowMeta rows (entryPath e) e)).found⟩ := by
  conv_lhs => unfold walkFiles
  simp only [hfind]
  rw [if_neg hmeta]

/-- Helper: unfolding the walk callback on a newly observed file. -/
theorem walkFiles_cons_new (e : DiskEntry) (es : List DiskEntry)
    (rows : List MediaRow)
    (hfind : rows.find? (fun x => x.path == entryPath e) = none) :
    walkFiles (e :: es) rows =
      ⟨(walkFiles es (rows ++ [mkRow e])).rows,
       entryPath e :: (walkFiles es (rows ++ [mkRow e])).jobs,
       (walkFiles es (rows ++ [mkRow e])).filesNew + 1,
       (walkFiles es (rows ++ [mkRow e])).filesChanged,
       entryPath e :: (walkFiles es (rows ++ [mkRow e])).found⟩ := by
  conv_lhs => unfold walkFiles
  simp only [hfind]

/-- Helper: a row whose path no walked file carries survives the walk
callback untouched. -/
theorem walkFiles_preserves_unmatched :
    ∀ (es : List DiskEntry) (rows : List MediaRow) (r : MediaRow),
      r ∈ rows → (∀ e ∈ es, entryPath e ≠ r.path) →
      r ∈ (walkFiles es rows).rows := by
  intro es
  induction es with
  | nil =>
    intro rows r hr _
    exact hr
  | cons e es ih =>
    intro rows r hr hne
    have hnee : entryPath e ≠ r.path := hne e (List.mem_cons_self e es)
    have hne' : ∀ x ∈ es, entryPath x ≠ r.path :=
      fun x hx => hne x (List.mem_cons_of_mem e hx)
    rcases hfind : rows.find? (fun x => x.path == entryPath e) with _ | r0
    · rw [walkFiles_cons_new e es rows hfind]
      exact ih _ _ (List.mem_append_left _ hr) hne'
    · by_cases hmeta : r0.size = e.size ∧ r0.mtime = e.mtime
      · rw [walkFiles_cons_unchanged e es rows r0 hfind hmeta]
        exact ih rows r hr hne'
      · rw [walkFiles_cons_changed e es rows r0 hfind hmeta]
        refine ih _ _ ?_ hne'
        have himg : (if r.path = entryPath e
            then { r with size := e.size, mtime := e.mtime, status := MFStatus.pending }
            else r) ∈ updateRowMeta rows (entryPath e) e :=
          List.mem_map_of_mem _ hr
        rwa [if_neg (fun hc => hnee hc.symm)] at himg

/-- Helper: the found set of the walk is exactly the walked paths. -/
theorem walkFiles_found :
    ∀ (es : List DiskEntry) (rows : List MediaRow),
      (walkFiles es rows).found = es.map entryPath := by
  intro es
  induction es with
  | nil =>
    intro rows
    rfl
  | cons e es ih =>
    intro rows
    rw [List.map_cons]
    rcases hfind : rows.find? (fun x => x.path == entryPath e) with _ | r0
    · rw [walkFiles_cons_new e es rows hfind]
      show entryPath e :: (walkFiles es (rows ++ [mkRow e])).found = _
      rw [ih]
    · by_cases hmeta : r0.size = e.size ∧ r0.mtime = e.mtime
      · rw [walkFiles_cons_unchanged e es rows r0 hfind hmeta]
        show entryPath e :: (walkFiles es rows).found = _
        rw [ih]
      · rw [walkFiles_cons_changed e es rows r0 hfind hmeta]
        show entryPath e :: (walkFiles es (updateRowMeta rows (entryPath e) e)).found = _
        rw [ih]

/-- Helper: after the walk, every walked file whose pre-scan row is not a
stale deleted row with identical stat values has a non-deleted row at its
path.  The excluded case is exactly the resurrection hole. -/
theorem walkFiles_live_row :
    ∀ (es : List DiskEntry) (rows : List MediaRow),
      ((es.map entryPath).Nodup) →
      ((rows.map MediaRow.path).Nodup) →
      (∀ r ∈ rows, r.status = MFStatus.deleted →
        ∀ e ∈ es, entryPath e = r.path → ¬(r.size = e.size ∧ r.mtime = e.mtime)) →
      ∀ e ∈ es, ∃ r ∈ (walkFiles es rows).rows,
        r.path = entryPath e ∧ r.status ≠ MFStatus.deleted := by
  intro es
  induction es with
  | nil =>
    intro rows _ _ _ e he
    cases he
  | cons e0 es ih =>
    intro rows hnes hnrows hres e he
    have hnes' : (es.map entryPath).Nodup := by
      rw [List.map_cons, List.nodup_cons] at hnes
      exact hnes.2
    have hp0 : entryPath e0 ∉ es.map entryPath := by
      rw [List.map_cons, List.nodup_cons] at hnes
      exact hnes.1
    rcases hfind : rows.find? (fun x => x.path == entryPath e0) with _ | r0
    · -- newly observed file: a fresh pending row is appended
      rw [walkFiles_cons_new e0 es rows hfind]
      have hnotin : entryPath e0 ∉ rows.map MediaRow.path := by
        intro hin
        obtain ⟨r1, hr1, hr1p⟩ := List.mem_map.mp hin
        have := List.find?_eq_none.mp hfind r1 hr1
        simp [hr1p] at this
      have hnrows' : ((rows ++ [mkRow e0]).map MediaRow.path).Nodup := by
        rw [List.map_append, List.nodup_append]
        refine ⟨hnrows, by simp, ?_⟩
        intro p hp
        simp only [mkRow, List.map_cons, List.map_nil, List.mem_cons,
          List.not_mem_nil, or_false]
        intro hcontra
        rw [hcontra] at hp
        exact hnotin hp
      have hres' : ∀ r ∈ rows ++ [mkRow e0], r.status = MFStatus.deleted →
          ∀ x ∈ es, entryPath x = r.path →
            ¬(r.size = x.size ∧ r.mtime = x.mtime) := by
        intro r hr hdel x hx hpx
        rcases List.mem_append.mp hr with h | h
        · exact hres r h hdel x (List.mem_cons_of_mem e0 hx) hpx
        · simp only [List.mem_singleton] at h
          subst h
          cases hdel
      rcases List.mem_cons.mp he with he0 | hes
      · subst he0
        refine ⟨mkRow e, ?_, rfl, by simp [mkRow]⟩
        show mkRow e ∈ (walkFiles es (rows ++ [mkRow e])).rows
        apply walkFiles_preserves_unmatched es _ _
          (List.mem_append_right _ (List.mem_singleton_self _))
        intro x hx hcontra
        have hc2 : entryPath x = entryPath e := hcontra
        exact hp0 (by rw [← hc2]; exact List.mem_map_of_mem entryPath hx)
      · obtain ⟨r, hrmem, hrp, hrs⟩ := ih _ hnes' hnrows' hres' e hes
        exact ⟨r, hrmem, hrp, hrs⟩
    · have hr0mem : r0 ∈ rows := List.mem_of_find?_eq_some hfind
      have hr0path : r0.path = entryPath e0 := by
        have := List.find?_some hfind
        simpa using this
      by_cases hmeta : r0.size = e0.size ∧ r0.mtime = e0.mtime
      · -- unchanged file: the row keeps whatever status it had
        rw [walkFiles_cons_unchanged e0 es rows r0 hfind hmeta]
        rcases List.mem_cons.mp he with he0 | hes
        · subst he0
          have hr0live : r0.status ≠ MFStatus.deleted := by
            intro hdel
            exact hres r0 hr0mem hdel e (List.mem_cons_self e es) hr0path.symm hmeta
          refine ⟨r0, ?_, hr0path, hr0live⟩
          show r0 ∈ (walkFiles es rows).rows
          apply walkFiles_preserves_unmatched es rows r0 hr0mem
          intro x hx hcontra
          exact hp0 (by rw [← hr0path, ← hcontra]; exact List.mem_map_of_mem entryPath hx)
        · have hlive := ih rows hnes' hnrows
            (fun r hr hdel x hx => hres r hr hdel x (List.mem_cons_of_mem e0 hx)) e hes
          obtain ⟨r, hrmem, hrp, hrs⟩ := hlive
          exact ⟨r, hrmem, hrp, hrs⟩
      · -- changed file: the row is refreshed and set pending
        rw [walkFiles_cons_changed e0 es rows r0 hfind hmeta]
        have hnrows' : ((updateRowMeta rows (entryPath e0) e0).map MediaRow.path).Nodup := by
          rw [updateRowMeta_paths]
          exact hnrows
        rcases List.mem_cons.mp he with he0 | hes
        · subst he0
          have hupd : ({ r0 with size := e.size, mtime := e.mtime, status := MFStatus.pending } : MediaRow) ∈ updateRowMeta rows (entryPath e) e := by
            have himg := List.mem_map_of_mem
              (fun r => if r.path = entryPath e
                then { r with size := e.size, mtime := e.mtime, status := MFStatus.pending }
                else r) hr0mem
            have himg2 : (if r0.path = entryPath e then ({ r0 with size := e.size, mtime := e.mtime, status := MFStatus.pending } : MediaRow) else r0) ∈ updateRowMeta rows (entryPath e) e := himg
            rwa [if_pos hr0path] at himg2
          refine ⟨{ r0 with size := e.size, mtime := e.mtime, status := MFStatus.pending }, ?_, hr0path, by simp⟩
          show _ ∈ (walkFiles es (updateRowMeta rows (entryPath e) e)).rows
          apply walkFiles_preserves_unmatched es _ _ hupd
          intro x hx hcontra
          exact hp0 (by rw [← hr0path, ← hcontra]; exact List.mem_map_of_mem entryPath hx)
        · have hres' : ∀ r ∈ updateRowMeta rows (entryPath e0) e0,
              r.status = MFStatus.deleted →
              ∀ x ∈ es, entryPath x = r.path →
                ¬(r.size = x.size ∧ r.mtime = x.mtime) := by
            intro r hr hdel x hx hpx
            obtain ⟨r1, hr1, hr1e⟩ := List.mem_map.mp hr
            by_cases hr1p : r1.path = entryPath e0
            · rw [if_pos hr1p] at hr1e
              rw [← hr1e] at hdel
              cases hdel
            · rw [if_neg hr1p] at hr1e
              subst hr1e
              exact hres r1 hr1 hdel x (List.mem_cons_of_mem e0 hx) hpx
          obtain ⟨r, hrmem, hrp, hrs⟩ := ih _ hnes' hnrows' hres' e hes
          exact ⟨r, hrmem, hrp, hrs⟩

/-- Helper: when every walked file already has a row with identical stat
values, the walk callback changes nothing, counts nothing and enqueues
nothing. -/
theorem walkFiles_all_matched :
    ∀ (es : List DiskEntry) (rows : List MediaRow),
      ((rows.map MediaRow.path).Nodup) →
      (∀ e ∈ es, ∃ r ∈ rows,
        r.path = entryPath e ∧ r.size = e.size ∧ r.mtime = e.mtime) →
      walkFiles es rows = ⟨rows, [], 0, 0, es.map entryPath⟩ := by
  intro es
  induction es with
  | nil =>
    intro rows _ _
    rfl
  | cons e es ih =>
    intro rows hnrows hmatch
    obtain ⟨r, hrmem, hrp, hrsz, hrmt⟩ := hmatch e (List.mem_cons_self e es)
    have hfind : rows.find? (fun x => x.path == entryPath e) = some r := by
      rw [← hrp]
      exact find?_path_eq_some hnrows hrmem
    rw [walkFiles_cons_unchanged e es rows r hfind ⟨hrsz, hrmt⟩]
    rw [ih rows hnrows (fun x hx => hmatch x (List.mem_cons_of_mem e hx))]
    rfl

/-- C1 counterexample: scan a root holding a.flac, scan again after the file
disappears (row goes deleted), then scan a third time with the file back at
identical size and mtime: the file is on disk and accepted, yet its row stays
deleted, so the non-deleted rows do not equal the on-disk supported files. -/
theorem scan_no_resurrection :
    acceptedFile aFlac = true ∧
    (scanLibrary [aFlac]
        ((scanLibrary [] ((scanLibrary [aFlac] []).rows)).rows)).rows =
      [⟨["a.flac"], 1000000, 100, MFStatus.deleted⟩] ∧
    ¬(∃ r ∈ (scanLibrary [aFlac]
        ((scanLibrary [] ((scanLibrary [aFlac] []).rows)).rows)).rows,
        r.path = entryPath aFlac ∧ r.status ≠ MFStatus.deleted) := by
  decide

/-- C1 amended: after a completed scan the paths of the non-deleted rows are
exactly the accepted on-disk files (supported lower-cased extension, no
dot-directory on the path), PROVIDED no pre-scan row is a deleted row whose
file is back on disk with identical size and second-precision mtime; such a
row stays deleted. -/
theorem scan_reconciles_index (disk : List DiskEntry) (rows : List MediaRow)
    (hdisk : ((disk.filter acceptedFile).map entryPath).Nodup)
    (hrows : ((rows.map MediaRow.path).Nodup))
    (hres : ∀ r ∈ rows, r.status = MFStatus.deleted →
      ∀ e ∈ disk, acceptedFile e = true → entryPath e = r.path →
        ¬(r.size = e.size ∧ r.mtime = e.mtime)) :
    ∀ p, (∃ r ∈ (scanLibrary disk rows).rows,
            r.path = p ∧ r.status ≠ MFStatus.deleted) ↔
      (∃ e ∈ disk, acceptedFile e = true ∧ entryPath e = p) := by
  intro p
  have hfound := walkFiles_found (disk.filter acceptedFile) rows
  constructor
  · rintro ⟨r2, hr2mem, hr2p, hr2s⟩
    have hr2mem' : r2 ∈ (walkFiles (disk.filter acceptedFile) rows).rows.map
        (fun r => if r.path ∈ (walkFiles (disk.filter acceptedFile) rows).found
          then r else { r with status := MFStatus.deleted }) := hr2mem
    obtain ⟨r, hrmem, hre⟩ := List.mem_map.mp hr2mem'
    by_cases hrf : r.path ∈ (walkFiles (disk.filter acceptedFile) rows).found
    · rw [if_pos hrf] at hre
      subst hre
      rw [hfound] at hrf
      rw [hr2p] at hrf
      obtain ⟨e, hemem, hep⟩ := List.mem_map.mp hrf
      exact ⟨e, List.mem_of_mem_filter hemem,
        List.of_mem_filter hemem, hep⟩
    · rw [if_neg hrf] at hre
      rw [← hre] at hr2s
      simp at hr2s
  · rintro ⟨e, hemem, heacc, hep⟩
    have heaccmem : e ∈ disk.filter acceptedFile :=
      List.mem_filter.mpr ⟨hemem, heacc⟩
    have hlive := walkFiles_live_row (disk.filter acceptedFile) rows hdisk hrows
      (fun r hr hdel x hx => hres r hr hdel x (List.mem_of_mem_filter hx)
        (List.of_mem_filter hx)) e heaccmem
    obtain ⟨r, hrmem, hrp, hrs⟩ := hlive
    have hrf : r.path ∈ (walkFiles (disk.filter acceptedFile) rows).found := by
      rw [hfound, hrp]
      exact List.mem_map_of_mem entryPath heaccmem
    refine ⟨r, ?_, by rw [hrp, hep], hrs⟩
    show r ∈ (walkFiles (disk.filter acceptedFile) rows).rows.map
      (fun x => if x.path ∈ (walkFiles (disk.filter acceptedFile) rows).found
        then x else { x with status := MFStatus.deleted })
    have hmm := List.mem_map_of_mem
      (fun x => if x.path ∈ (walkFiles (disk.filter acceptedFile) rows).found
        then x else { x with status := MFStatus.deleted }) hrmem
    have hmm2 : (if r.path ∈ (walkFiles (disk.filter acceptedFile) rows).found then r else { r with status := MFStatus.deleted }) ∈ (walkFiles (disk.filter acceptedFile) rows).rows.map (fun x => if x.path ∈ (walkFiles (disk.filter acceptedFile) rows).found then x else { x with status := MFStatus.deleted }) := hmm
    rwa [if_pos hrf] at hmm2

/-- Witness for scan_reconciles_index: a first scan of a one-file root indexes
the file as a live row. -/
theorem scan_reconciles_index_witness :
    ∃ r ∈ (scanLibrary [aFlac] []).rows,
      r.path = ["a.flac"] ∧ r.status ≠ MFStatus.deleted :=
  (scan_reconciles_index [aFlac] [] (by decide) (by decide)
      (fun r hr => absurd hr (List.not_mem_nil r)) ["a.flac"]).mpr
    ⟨aFlac, by decide, by decide, by decide⟩

/-- C5 counterexample: after a.flac is indexed and then deleted, every further
scan of the unchanged (empty) tree counts the stale deleted row again:
files_deleted = 1, not 0, even though the filesystem did not change between
the second and third scan. -/
theorem scan_not_idempotent_with_deleted_rows :
    (scanLibrary [] ((scanLibrary [] ((scanLibrary [aFlac] []).rows)).rows)).filesNew
        = 0 ∧
    (scanLibrary [] ((scanLibrary [] ((scanLibrary [aFlac] []).rows)).rows)).filesChanged
        = 0 ∧
    (scanLibrary [] ((scanLibrary [] ((scanLibrary [aFlac] []).rows)).rows)).jobs
        = [] ∧
    (scanLibrary [] ((scanLibrary [] ((scanLibrary [aFlac] []).rows)).rows)).filesDeleted
        = 1 ∧
    ¬((scanLibrary [] ((scanLibrary [] ((scanLibrary [aFlac] []).rows)).rows)).filesDeleted
        = 0) := by
  decide

/-- C5 amended: re-scanning a filesystem that matches the index (every
accepted on-disk file has a row with identical size and mtime) produces
files_new = files_changed = 0 and no new jobs, but files_deleted equals the
number of indexed rows whose path is not on disk - each already-deleted row is
re-counted - and is 0 only when there are no such rows. -/
theorem scan_unchanged_fs (disk : List DiskEntry) (rows : List MediaRow)
    (hrows : ((rows.map MediaRow.path).Nodup))
    (hmatch : ∀ e ∈ disk, acceptedFile e = true →
      ∃ r ∈ rows, r.path = entryPath e ∧ r.size = e.size ∧ r.mtime = e.mtime) :
    (scanLibrary disk rows).filesNew = 0 ∧
    (scanLibrary disk rows).filesChanged = 0 ∧
    (scanLibrary disk rows).jobs = [] ∧
    (scanLibrary disk rows).filesDeleted =
      (rows.filter (fun r =>
        decide (r.path ∉ (disk.filter acceptedFile).map entryPath))).length := by
  have hwalk := walkFiles_all_matched (disk.filter acceptedFile) rows hrows
    (fun e he => hmatch e (List.mem_of_mem_filter he) (List.of_mem_filter he))
  unfold scanLibrary
  dsimp only
  rw [hwalk]
  exact ⟨rfl, rfl, rfl, rfl⟩

/-- Witness for scan_unchanged_fs: re-scanning the one-file root with its row
already indexed counts nothing and enqueues nothing. -/
theorem scan_unchanged_fs_witness :
    (scanLibrary [aFlac] [⟨["a.flac"], 1000000, 100, MFStatus.success⟩]).filesNew = 0 ∧
    (scanLibrary [aFlac] [⟨["a.flac"], 1000000, 100, MFStatus.success⟩]).filesChanged = 0 ∧
    (scanLibrary [aFlac] [⟨["a.flac"], 1000000, 100, MFStatus.success⟩]).jobs = [] ∧
    (scanLibrary [aFlac] [⟨["a.flac"], 1000000, 100, MFStatus.success⟩]).filesDeleted =
      (([⟨["a.flac"], 1000000, 100, MFStatus.success⟩] : List MediaRow).filter (fun r =>
        decide (r.path ∉ (([aFlac].filter acceptedFile)).map entryPath))).length :=
  scan_unchanged_fs [aFlac] [⟨["a.flac"], 1000000, 100, MFStatus.success⟩]
    (by decide) (by decide)

end Ottavia
